import Mathlib

/-!
# Verification of the city/locality matching core (`src/lib/utils.js`)

This file gives a shallow embedding of the two exported functions of
`src/lib/utils.js` — `normalize` and `cityFilter` — and proves the
specification's claims about them.

## Modelling conventions

* A JavaScript string is modelled as a `List Char` of Unicode code points
  (`JStr`).  The modelled character fragment lies in the Basic Multilingual
  Plane (plus U+1D400, see below), where the JavaScript `.length` (UTF-16
  code units) coincides with the code-point count.
* JavaScript numbers are modelled exactly over `ℚ`; the score arithmetic of
  `cityFilter` (integers up to 1000 and multiples of 1/100) is exact.
* The host Unicode algorithms used by `normalize`
  (`toLowerCase`, Unicode normalization form D, the regexp
  class `\p{Diacritic}`, `trim`) are modelled by
  finite character tables transcribed from the Unicode character database
  (UnicodeData.txt for lowercase mappings and canonical decompositions,
  PropList.txt for the `Diacritic` and `White_Space` properties,
  DerivedGeneralCategory.txt for the `Mn` category).  Characters outside the
  tables are inert (no mapping, no decomposition, no property).  All
  combining marks of the fragment have canonical combining class 0 or 230,
  so canonical reordering during NFD is the identity on every string over
  the fragment and NFD is exactly the concatenation of the per-character
  canonical decompositions.
* Fallible JavaScript evaluation (a `TypeError` from calling a string
  method on a non-string) is modelled with `Except`.
-/

/-- A JavaScript string: a list of Unicode code points. -/
abbrev JStr := List Char

/-! ## Unicode character data fragment -/

/-- Simple lowercase mappings from UnicodeData.txt, restricted to the
fragment: ASCII `A`–`Z` and the accented Latin capitals used by Italian
place names (U+00C0 À, U+00C1 Á, U+00C8 È, U+00C9 É, U+00CC Ì, U+00CD Í,
U+00D2 Ò, U+00D3 Ó, U+00D9 Ù, U+00DA Ú).  U+1D400 MATHEMATICAL BOLD
CAPITAL A is an uppercase letter with *no* lowercase mapping and therefore
has no entry. -/
def lowerTable : List (Char × Char) :=
  [('A', 'a'), ('B', 'b'), ('C', 'c'), ('D', 'd'), ('E', 'e'), ('F', 'f'),
   ('G', 'g'), ('H', 'h'), ('I', 'i'), ('J', 'j'), ('K', 'k'), ('L', 'l'),
   ('M', 'm'), ('N', 'n'), ('O', 'o'), ('P', 'p'), ('Q', 'q'), ('R', 'r'),
   ('S', 's'), ('T', 't'), ('U', 'u'), ('V', 'v'), ('W', 'w'), ('X', 'x'),
   ('Y', 'y'), ('Z', 'z'),
   ('\u00C0', '\u00E0'), ('\u00C1', '\u00E1'),
   ('\u00C8', '\u00E8'), ('\u00C9', '\u00E9'),
   ('\u00CC', '\u00EC'), ('\u00CD', '\u00ED'),
   ('\u00D2', '\u00F2'), ('\u00D3', '\u00F3'),
   ('\u00D9', '\u00F9'), ('\u00DA', '\u00FA')]

/-- `toLowerCase`, per character (every mapping in the fragment is
one-to-one). -/
def jsToLower (c : Char) : Char :=
  match lowerTable.lookup c with
  | some v => v
  | none => c

/-- Canonical decompositions (UnicodeData.txt field 5, non-compatibility),
restricted to the fragment: the precomposed Latin letters with grave
(U+0300) or acute (U+0301) accents, in both cases.  The combining marks
themselves and the remaining fragment characters have no decomposition. -/
def nfdTable : List (Char × List Char) :=
  [('\u00E0', ['a', '\u0300']), ('\u00E1', ['a', '\u0301']),
   ('\u00E8', ['e', '\u0300']), ('\u00E9', ['e', '\u0301']),
   ('\u00EC', ['i', '\u0300']), ('\u00ED', ['i', '\u0301']),
   ('\u00F2', ['o', '\u0300']), ('\u00F3', ['o', '\u0301']),
   ('\u00F9', ['u', '\u0300']), ('\u00FA', ['u', '\u0301']),
   ('\u00C0', ['A', '\u0300']), ('\u00C1', ['A', '\u0301']),
   ('\u00C8', ['E', '\u0300']), ('\u00C9', ['E', '\u0301']),
   ('\u00CC', ['I', '\u0300']), ('\u00CD', ['I', '\u0301']),
   ('\u00D2', ['O', '\u0300']), ('\u00D3', ['O', '\u0301']),
   ('\u00D9', ['U', '\u0300']), ('\u00DA', ['U', '\u0301'])]

/-- Canonical decomposition of one character (identity when the character
has none). -/
def nfdChar (c : Char) : List Char :=
  match nfdTable.lookup c with
  | some ds => ds
  | none => [c]

/-- The `Diacritic` binary property (PropList.txt), restricted to the
fragment: the combining grave U+0300 and acute U+0301 and the spacing
accent characters U+005E, U+0060, U+00A8, U+00B4.  U+FE00 VARIATION
SELECTOR-1 is general category `Mn` but does **not** have the `Diacritic`
property, and no uppercase letter has it. -/
def diacriticChars : List Char :=
  ['\u0300', '\u0301', '^', '\u0060', '\u00A8', '\u00B4']

/-- Test for the regexp class `\p{Diacritic}`. -/
def isDiacritic (c : Char) : Bool := diacriticChars.contains c

/-- The characters removed by `trim`: the `White_Space` property
(PropList.txt) restricted to the fragment — space, tab, line feed,
vertical tab, form feed, carriage return, U+00A0 NO-BREAK SPACE, U+2028
LINE SEPARATOR, U+2029 PARAGRAPH SEPARATOR, U+FEFF ZERO WIDTH NO-BREAK
SPACE. -/
def wsChars : List Char :=
  [' ', '\t', '\n', '\u000B', '\u000C', '\r', '\u00A0', '\u2028',
   '\u2029', '\uFEFF']

/-- Whitespace test for `trim`. -/
def isWhite (c : Char) : Bool := wsChars.contains c

/-- General category `Mark, Nonspacing` (Mn), restricted to the fragment:
the two combining accents and U+FE00 VARIATION SELECTOR-1 (which is `Mn`
but not `Diacritic`). -/
def mnChars : List Char := ['\u0300', '\u0301', '\uFE00']

/-- Test for general category Mn. -/
def isMn (c : Char) : Bool := mnChars.contains c

/-- The uppercase letters of the fragment: the domain of `lowerTable`
together with U+1D400 MATHEMATICAL BOLD CAPITAL A, an uppercase letter
(general category Lu) with no lowercase mapping. -/
def upperChars : List Char := lowerTable.map Prod.fst ++ [Char.ofNat 0x1D400]

/-- Uppercase-letter test. -/
def isUpper (c : Char) : Bool := upperChars.contains c

/-! ## The `normalize` pipeline (source lines 32–33 of `utils.js`)

```js
export const normalize = (s = "") =>
    s.toLowerCase().normalize("NFD").replace(/\p{Diacritic}/gu, "").trim();
```
-/

/-- `toLowerCase` on a string. -/
def jsLowerStr (s : JStr) : JStr := s.map jsToLower

/-- Normalization form D (exact on the fragment, see the header comment). -/
def jsNFD (s : JStr) : JStr := s.flatMap nfdChar

/-- `replace(/\p{Diacritic}/gu, "")`. -/
def stripDiacritics (s : JStr) : JStr := s.filter (fun c => !isDiacritic c)

/-- `trim()`: remove leading and trailing whitespace. -/
def trimStr (s : JStr) : JStr :=
  ((s.dropWhile isWhite).reverse.dropWhile isWhite).reverse

/-- The body of `normalize` applied to an actual string. -/
def normalizeStr (s : JStr) : JStr :=
  trimStr (stripDiacritics (jsNFD (jsLowerStr s)))

/-- A JavaScript `TypeError` (the only error the modelled code can raise). -/
inductive JSError
  | typeError
deriving DecidableEq

deriving instance DecidableEq for Except

/-- The possible arguments of `normalize(s)`: `undefined` (also the absent
argument), `null`, or a string. -/
inductive JSStrArg
  | undef
  | null
  | str (s : JStr)
deriving DecidableEq

/-- `normalize` as called: the default parameter `s = ""` fires only for
`undefined`; for `null` the call of `toLowerCase` on `null` raises
`TypeError` (`null` does not trigger a default parameter). -/
def jsNormalize : JSStrArg → Except JSError JStr
  | .undef => .ok (normalizeStr [])
  | .null => .error .typeError
  | .str s => .ok (normalizeStr s)

-- `normalize("  Pésàro  ") = "pesaro"` (the JSDoc example).
example :
    normalizeStr
        [' ', ' ', 'P', '\u00E9', 's', '\u00E0', 'r', 'o', ' ', ' '] =
      ['p', 'e', 's', 'a', 'r', 'o'] := by decide

-- `normalize("MILANO") = "milano"` (the JSDoc example).
example :
    normalizeStr ['M', 'I', 'L', 'A', 'N', 'O'] =
      ['m', 'i', 'l', 'a', 'n', 'o'] := by decide

/-! ## The `cityFilter` pipeline (source lines 84–103 of `utils.js`)

```js
export const cityFilter = (options, { inputValue }) => {
    const q = normalize(inputValue);
    if (!q) return options;

    return options
        .map((label) => {
            const n = normalize(label);
            let score = 0;
            if (n === q) score = 1000;
            else if (n.startsWith(q)) score = 800 - label.length;
            else {
                const idx = n.indexOf(q);
                if (idx >= 0) score = 600 - idx - label.length * 0.01;
            }
            return { label, score };
        })
        .filter(x => x.score > 0)
        .sort((a, b) => b.score - a.score)
        .map(x => x.label);
};
```
-/

/-- `n.indexOf(q)`: the first index at which `q` occurs as a contiguous
substring of `n`, `none` when it does not occur (JavaScript returns `-1`;
only its sign is ever inspected, so an `Option` is faithful).  Used with
`q` non-empty. -/
def firstIdx (n q : JStr) : Option Nat :=
  if q.isPrefixOf n then some 0
  else
    match n with
    | [] => none
    | _ :: t => (firstIdx t q).map (· + 1)

/-- The per-candidate score computed by the `map` callback of `cityFilter`
for a string candidate `label` against the already-normalized query `q`. -/
def score (label q : JStr) : ℚ :=
  let n := normalizeStr label
  if n = q then 1000
  else if q.isPrefixOf n then 800 - (label.length : ℚ)
  else
    match firstIdx n q with
    | some idx => 600 - (idx : ℚ) - (label.length : ℚ) * 0.01
    | none => 0

/-- The order used by `sort((a, b) => b.score - a.score)`: `a` may come
before `b` exactly when `b.score ≤ a.score` (descending by score).
ECMAScript `sort` is stable, which `List.insertionSort` with this order
realizes. -/
def scoreGE (a b : JStr × ℚ) : Prop := b.2 ≤ a.2

instance : DecidableRel scoreGE := fun a b => inferInstanceAs (Decidable (b.2 ≤ a.2))

instance : IsTotal (JStr × ℚ) scoreGE := ⟨fun a b => le_total b.2 a.2⟩

instance : IsTrans (JStr × ℚ) scoreGE := ⟨fun _ _ _ hab hbc => le_trans hbc hab⟩

/-- The intermediate list of `{ label, score }` pairs (string candidates). -/
def scoredOf (options : List JStr) (q : JStr) : List (JStr × ℚ) :=
  options.map fun label => (label, score label q)

/-- After `.filter(x => x.score > 0)`. -/
def keptOf (options : List JStr) (q : JStr) : List (JStr × ℚ) :=
  (scoredOf options q).filter fun x => decide (0 < x.2)

/-- After the stable `.sort((a, b) => b.score - a.score)`. -/
def rankedOf (options : List JStr) (q : JStr) : List (JStr × ℚ) :=
  List.insertionSort scoreGE (keptOf options q)

/-- `cityFilter` on a list of string candidates (the repository only ever
passes arrays of strings; the spec names this `rankCandidates`). -/
def cityFilter (options : List JStr) (inputValue : JStr) : List JStr :=
  let q := normalizeStr inputValue
  if q = [] then options
  else (rankedOf options q).map Prod.fst

/-- A candidate as documented by the JSDoc of `cityFilter`: a string, or an
object that may carry `label` and/or `nome` fields. -/
inductive JSOpt
  | str (s : JStr)
  | obj (label : Option JStr) (nome : Option JStr)
deriving DecidableEq

/-- The `options.map((label) => …)` step over arbitrary candidates: the
callback calls `normalize(label)`, and `toLowerCase` on a non-string
raises `TypeError` at the first object element. -/
def mapScore (q : JStr) : List JSOpt → Except JSError (List (JStr × ℚ))
  | [] => .ok []
  | .obj _ _ :: _ => .error .typeError
  | .str s :: rest => do
    let r ← mapScore q rest
    .ok ((s, score s q) :: r)

/-- `cityFilter` at the JavaScript call level: `options` may be `null`
(`none`) or an array of strings and objects.  With a query normalizing to
empty the options are returned untouched; otherwise `null.map` or
`normalize(object)` raise `TypeError`. -/
def jsCityFilter (options : Option (List JSOpt)) (inputValue : JStr) :
    Except JSError (Option (List JSOpt)) :=
  let q := normalizeStr inputValue
  if q = [] then .ok options
  else
    match options with
    | none => .error .typeError
    | some opts => do
      let scored ← mapScore q opts
      .ok (some (((List.insertionSort scoreGE
        (scored.filter fun x => decide (0 < x.2))).map Prod.fst).map JSOpt.str))

/-- `q` occurs as a contiguous substring of `n` at index `i` (the
specification-side reading of `indexOf`). -/
def occursAt (n q : JStr) (i : Nat) : Prop := q <+: n.drop i


/-! ## Character-level lemmas about the Unicode fragment -/

/-- A successful association lookup comes from an entry of the table. -/
theorem lookup_mem {β : Type} (t : List (Char × β)) (c : Char) (v : β)
    (h : t.lookup c = some v) : (c, v) ∈ t := by
  induction t with
  | nil => simp [List.lookup] at h
  | cons p rest ih =>
    obtain ⟨k, b⟩ := p
    rw [List.lookup] at h
    cases hkc : c == k with
    | true =>
      rw [hkc] at h
      simp only [Option.some.injEq] at h
      subst h
      have : c = k := by simpa using hkc
      subst this
      exact List.mem_cons_self _ _
    | false =>
      rw [hkc] at h
      exact List.mem_cons_of_mem _ (ih h)

/-- No lowercase value of `lowerTable` is itself a key of `lowerTable`. -/
theorem lowerTable_value_not_key :
    ∀ p ∈ lowerTable, lowerTable.lookup p.2 = none := by decide

/-- Every character of the canonical decomposition of a lowercase value of
`lowerTable` is fixed by `jsToLower` and has no decomposition. -/
theorem lowerTable_value_nfd_inert :
    ∀ p ∈ lowerTable, ∀ d ∈ nfdChar p.2, jsToLower d = d ∧ nfdChar d = [d] := by
  decide

/-- For a decomposable character that `toLowerCase` leaves unchanged, every
character of its decomposition is fixed by `jsToLower` and has no further
decomposition. -/
theorem nfdTable_lower_inert :
    ∀ p ∈ nfdTable, lowerTable.lookup p.1 = none →
      ∀ d ∈ p.2, jsToLower d = d ∧ nfdChar d = [d] := by
  decide

/-- Every character produced by decomposing a lowercased character is fixed
by both `jsToLower` and `nfdChar`: one pass of
lowercase-then-decompose reaches a fixpoint of both. -/
theorem lower_nfd_inert (c d : Char) (hd : d ∈ nfdChar (jsToLower c)) :
    jsToLower d = d ∧ nfdChar d = [d] := by
  unfold jsToLower at hd
  cases hlow : lowerTable.lookup c with
  | some v =>
    rw [hlow] at hd
    exact lowerTable_value_nfd_inert _ (lookup_mem _ _ _ hlow) d hd
  | none =>
    rw [hlow] at hd
    unfold nfdChar at hd
    cases hnfd : nfdTable.lookup c with
    | some ds =>
      rw [hnfd] at hd
      exact nfdTable_lower_inert _ (lookup_mem _ _ _ hnfd) hlow d hd
    | none =>
      rw [hnfd] at hd
      simp only [List.mem_singleton] at hd
      subst hd
      constructor
      · unfold jsToLower
        rw [hlow]
      · unfold nfdChar
        rw [hnfd]

/-- Membership in a trimmed string implies membership in the original. -/
theorem mem_of_mem_trimStr {c : Char} {s : JStr} (h : c ∈ trimStr s) : c ∈ s := by
  unfold trimStr at h
  rw [List.mem_reverse] at h
  have h2 := (List.dropWhile_sublist isWhite).mem h
  rw [List.mem_reverse] at h2
  exact (List.dropWhile_sublist isWhite).mem h2

/-- Every character of `normalizeStr s` is fixed by `jsToLower` and
`nfdChar` and does not have the `Diacritic` property. -/
theorem normalizeStr_char {s : JStr} {c : Char} (h : c ∈ normalizeStr s) :
    jsToLower c = c ∧ nfdChar c = [c] ∧ isDiacritic c = false := by
  unfold normalizeStr at h
  have h1 := mem_of_mem_trimStr h
  unfold stripDiacritics at h1
  rw [List.mem_filter] at h1
  obtain ⟨h2, hdia⟩ := h1
  unfold jsNFD at h2
  rw [List.mem_flatMap] at h2
  obtain ⟨a, ha, hc⟩ := h2
  unfold jsLowerStr at ha
  rw [List.mem_map] at ha
  obtain ⟨c0, _, rfl⟩ := ha
  obtain ⟨hl, hn⟩ := lower_nfd_inert c0 c hc
  refine ⟨hl, hn, ?_⟩
  simpa using hdia

/-! ## String-level fixpoint lemmas -/

/-- Lowercasing is the identity on strings of `jsToLower`-fixed
characters. -/
theorem jsLowerStr_fixed {l : JStr} (h : ∀ c ∈ l, jsToLower c = c) :
    jsLowerStr l = l := by
  unfold jsLowerStr
  calc l.map jsToLower = l.map id := List.map_congr_left h
  _ = l := List.map_id l

/-- NFD is the identity on strings of decomposition-free characters. -/
theorem jsNFD_fixed {l : JStr} (h : ∀ c ∈ l, nfdChar c = [c]) :
    jsNFD l = l := by
  induction l with
  | nil => rfl
  | cons c t ih =>
    rw [jsNFD, List.flatMap_cons, h c (List.mem_cons_self _ _)]
    rw [jsNFD] at ih
    rw [ih fun d hd => h d (List.mem_cons_of_mem _ hd)]
    rfl

/-- Stripping diacritics is the identity on diacritic-free strings. -/
theorem stripDiacritics_fixed {l : JStr} (h : ∀ c ∈ l, isDiacritic c = false) :
    stripDiacritics l = l := by
  unfold stripDiacritics
  exact List.filter_eq_self.mpr fun c hc => by simp [h c hc]

/-- `dropWhile` is the identity when the head does not satisfy the
predicate. -/
theorem dropWhile_eq_self_of_head {α : Type} {p : α → Bool} {l : List α}
    (h : ∀ c, l.head? = some c → p c = false) : l.dropWhile p = l := by
  cases l with
  | nil => rfl
  | cons a t =>
    rw [List.dropWhile_cons]
    simp [h a rfl]

/-- The head of a `dropWhile` result does not satisfy the predicate. -/
theorem dropWhile_head_false {α : Type} {p : α → Bool} {l : List α} {c : α}
    (h : (l.dropWhile p).head? = some c) : p c = false := by
  induction l with
  | nil => simp [List.dropWhile] at h
  | cons a t ih =>
    rw [List.dropWhile_cons] at h
    split at h
    · exact ih h
    · simp_all

/-- The head of `trimStr s` is not whitespace. -/
theorem trimStr_head {s : JStr} {c : Char}
    (h : (trimStr s).head? = some c) : isWhite c = false := by
  unfold trimStr at h
  rw [List.head?_reverse] at h
  obtain ⟨t, ht⟩ := List.dropWhile_suffix (l := (s.dropWhile isWhite).reverse) isWhite
  have hlast : (s.dropWhile isWhite).reverse.getLast? = some c := by
    rw [← ht, List.getLast?_append, h]
    rfl
  rw [← List.head?_reverse, List.reverse_reverse] at hlast
  exact dropWhile_head_false hlast

/-- The last character of `trimStr s` is not whitespace. -/
theorem trimStr_last {s : JStr} {c : Char}
    (h : (trimStr s).getLast? = some c) : isWhite c = false := by
  unfold trimStr at h
  rw [← List.head?_reverse, List.reverse_reverse] at h
  exact dropWhile_head_false h

/-- Trimming is idempotent. -/
theorem trimStr_idem (s : JStr) : trimStr (trimStr s) = trimStr s := by
  have h1 : (trimStr s).dropWhile isWhite = trimStr s :=
    dropWhile_eq_self_of_head fun c hc => trimStr_head hc
  have h2 : (trimStr s).reverse.dropWhile isWhite = (trimStr s).reverse :=
    dropWhile_eq_self_of_head fun c hc => by
      rw [List.head?_reverse] at hc
      exact trimStr_last hc
  show ((((trimStr s).dropWhile isWhite).reverse.dropWhile isWhite)).reverse = trimStr s
  rw [h1, h2, List.reverse_reverse]

/-! ## Pipeline lemmas for `cityFilter` -/

/-- The labels of the scored list are exactly the options, in order. -/
theorem scoredOf_map_fst (options : List JStr) (q : JStr) :
    (scoredOf options q).map Prod.fst = options := by
  unfold scoredOf
  rw [List.map_map]
  exact List.map_id options

/-- Every scored pair carries the score of its own label. -/
theorem mem_scoredOf {options : List JStr} {q : JStr} {p : JStr × ℚ}
    (h : p ∈ scoredOf options q) : p.2 = score p.1 q ∧ p.1 ∈ options := by
  unfold scoredOf at h
  rw [List.mem_map] at h
  obtain ⟨l, hl, rfl⟩ := h
  exact ⟨rfl, hl⟩

/-- Membership in the filtered scored list. -/
theorem mem_keptOf {options : List JStr} {q : JStr} {p : JStr × ℚ} :
    p ∈ keptOf options q ↔ p ∈ scoredOf options q ∧ 0 < p.2 := by
  unfold keptOf
  rw [List.mem_filter]
  simp

/-- The sort step permutes the kept pairs. -/
theorem rankedOf_perm (options : List JStr) (q : JStr) :
    (rankedOf options q).Perm (keptOf options q) :=
  List.perm_insertionSort scoreGE (keptOf options q)

/-- Every pair surviving to the sorted stage has a positive score which is
the score of its label. -/
theorem mem_rankedOf {options : List JStr} {q : JStr} {p : JStr × ℚ}
    (h : p ∈ rankedOf options q) :
    p.2 = score p.1 q ∧ 0 < p.2 ∧ p.1 ∈ options := by
  rw [(rankedOf_perm options q).mem_iff, mem_keptOf] at h
  obtain ⟨hs, hpos⟩ := h
  obtain ⟨heq, hmem⟩ := mem_scoredOf hs
  exact ⟨heq, hpos, hmem⟩

/-- With a non-empty normalized query, the output is the sorted kept labels. -/
theorem cityFilter_of_ne (options : List JStr) (inputValue : JStr)
    (h : normalizeStr inputValue ≠ []) :
    cityFilter options inputValue =
      (rankedOf options (normalizeStr inputValue)).map Prod.fst := by
  unfold cityFilter
  simp [h]

/-- Every label in the output of `cityFilter` (non-empty query case) has a
positive score. -/
theorem cityFilter_mem_pos {options : List JStr} {inputValue l : JStr}
    (hq : normalizeStr inputValue ≠ [])
    (h : l ∈ cityFilter options inputValue) :
    0 < score l (normalizeStr inputValue) ∧ l ∈ options := by
  rw [cityFilter_of_ne options inputValue hq, List.mem_map] at h
  obtain ⟨p, hp, rfl⟩ := h
  obtain ⟨heq, hpos, hmem⟩ := mem_rankedOf hp
  exact ⟨heq ▸ hpos, hmem⟩

/-- Inserting into a list does not disturb the subsequence of pairs whose
score equals a fixed value `c`: skipped pairs all have score strictly above
the inserted pair's. -/
theorem filter_score_orderedInsert (c : ℚ) (a : JStr × ℚ) (l : List (JStr × ℚ)) :
    (List.orderedInsert scoreGE a l).filter (fun x => decide (x.2 = c)) =
      if a.2 = c then a :: l.filter (fun x => decide (x.2 = c))
      else l.filter (fun x => decide (x.2 = c)) := by
  induction l with
  | nil =>
    rw [List.orderedInsert_nil]
    by_cases hac : a.2 = c <;> simp [List.filter_cons, hac]
  | cons b t ih =>
    show (if scoreGE a b then a :: b :: t else b :: List.orderedInsert scoreGE a t).filter _ = _
    by_cases hab : scoreGE a b
    · rw [if_pos hab]
      by_cases hac : a.2 = c <;> simp [List.filter_cons, hac]
    · rw [if_neg hab]
      by_cases hac : a.2 = c
      · have hbc : b.2 ≠ c := ne_of_gt (hac ▸ lt_of_not_le hab)
        simp [List.filter_cons, hac, hbc, ih]
      · by_cases hbc : b.2 = c <;> simp [List.filter_cons, hac, hbc, ih]

/-- The stable insertion sort preserves, for every score value `c`, the
subsequence of pairs scoring exactly `c`. -/
theorem filter_score_insertionSort (c : ℚ) (l : List (JStr × ℚ)) :
    (List.insertionSort scoreGE l).filter (fun x => decide (x.2 = c)) =
      l.filter (fun x => decide (x.2 = c)) := by
  induction l with
  | nil => rfl
  | cons a t ih =>
    show (List.orderedInsert scoreGE a (List.insertionSort scoreGE t)).filter _ = _
    rw [filter_score_orderedInsert, List.filter_cons]
    by_cases hac : a.2 = c <;> simp [hac, ih]

/-! ## Correctness of `indexOf` against the least-occurrence reading -/

/-- The boolean `startsWith` test agrees with the prefix relation. -/
theorem isPrefixOf_eq (l₁ l₂ : JStr) : l₁.isPrefixOf l₂ = true ↔ l₁ <+: l₂ :=
   List.isPrefixOf_iff_prefix

/-- A non-empty string is no prefix of the empty string. -/
theorem isPrefixOf_nil_false {q : JStr} (hq : q ≠ []) : q.isPrefixOf [] = false := by
  cases q <;> simp_all [List.isPrefixOf]

/-- Occurrence at index 0 is the prefix relation. -/
theorem occursAt_zero {n q : JStr} : occursAt n q 0 ↔ q <+: n := by
  simp [occursAt]

/-- Occurrence in a cons at a successor index is occurrence in the tail. -/
theorem occursAt_succ {c : Char} {t q : JStr} {i : Nat} :
    occursAt (c :: t) q (i + 1) ↔ occursAt t q i := by
  simp [occursAt, List.drop_succ_cons]

/-- A non-empty string occurs nowhere in the empty string. -/
theorem not_occursAt_nil {q : JStr} (hq : q ≠ []) (i : Nat) : ¬ occursAt [] q i := by
  simp [occursAt, List.drop_nil, List.prefix_nil]
  exact hq

/-- `firstIdx` is sound and complete for least occurrences: `none` means no
occurrence, and `some i` is the least occurrence index. -/
theorem firstIdx_spec {q : JStr} (hq : q ≠ []) :
    ∀ n : JStr,
      (firstIdx n q = none → ∀ i, ¬ occursAt n q i) ∧
      (∀ i, firstIdx n q = some i →
        occursAt n q i ∧ ∀ j, j < i → ¬ occursAt n q j) := by
  intro n
  induction n with
  | nil =>
    refine ⟨fun _ i => not_occursAt_nil hq i, fun i h => absurd h ?_⟩
    rw [firstIdx, if_neg (by simp [isPrefixOf_nil_false hq])]
    simp
  | cons c t ih =>
    by_cases hpre : q.isPrefixOf (c :: t) = true
    · constructor
      · intro h
        rw [firstIdx, if_pos hpre] at h
        exact absurd h (by simp)
      · intro i h
        rw [firstIdx, if_pos hpre] at h
        have hi : i = 0 := by simpa using h.symm
        subst hi
        exact ⟨occursAt_zero.mpr ((isPrefixOf_eq q (c :: t)).mp hpre),
          fun j hj => absurd hj (Nat.not_lt_zero j)⟩
    · have hun : firstIdx (c :: t) q = (firstIdx t q).map (· + 1) := by
        rw [firstIdx, if_neg hpre]
      have hnot0 : ¬ occursAt (c :: t) q 0 := fun h =>
        hpre ((isPrefixOf_eq q (c :: t)).mpr (occursAt_zero.mp h))
      constructor
      · intro h i
        rw [hun] at h
        have ht : firstIdx t q = none := by
          cases hft : firstIdx t q <;> simp_all
        cases i with
        | zero => exact hnot0
        | succ j => exact fun h2 => (ih.1 ht j) (occursAt_succ.mp h2)
      · intro i h
        rw [hun] at h
        cases hft : firstIdx t q with
        | none => rw [hft] at h; exact absurd h (by simp)
        | some k =>
          rw [hft] at h
          simp at h
          subst h
          obtain ⟨hocc, hleast⟩ := ih.2 k hft
          refine ⟨occursAt_succ.mpr hocc, fun j hj => ?_⟩
          cases j with
          | zero => exact hnot0
          | succ m =>
            exact fun h2 =>
              (hleast m (Nat.lt_of_succ_lt_succ hj)) (occursAt_succ.mp h2)

/-- When the query is not a prefix, any found occurrence index is at
least 1. -/
theorem firstIdx_pos {n q : JStr} {i : Nat}
    (hpre : ¬ q.isPrefixOf n = true) (h : firstIdx n q = some i) : 1 ≤ i := by
  cases n with
  | nil => rw [firstIdx, if_neg (by simpa using hpre)] at h; simp at h
  | cons c t =>
    rw [firstIdx, if_neg (by simpa using hpre)] at h
    cases hft : firstIdx t q with
    | none => rw [hft] at h; simp at h
    | some k =>
      rw [hft] at h
      simp at h
      omega

/-- On a list of string candidates the `map` step of `cityFilter` succeeds
and produces exactly the scored pairs. -/
theorem mapScore_strs (q : JStr) (opts : List JStr) :
    mapScore q (opts.map JSOpt.str) = .ok (scoredOf opts q) := by
  induction opts with
  | nil => rfl
  | cons l t ih =>
    show (do
      let r ← mapScore q (t.map JSOpt.str)
      Except.ok ((l, score l q) :: r)) = _
    rw [ih]
    rfl

/-- On string candidate lists the JavaScript-level `cityFilter` succeeds
and agrees with the string-level pipeline. -/
theorem jsCityFilter_strs (opts : List JStr) (inputValue : JStr) :
    jsCityFilter (some (opts.map JSOpt.str)) inputValue =
      .ok (some ((cityFilter opts inputValue).map JSOpt.str)) := by
  unfold jsCityFilter cityFilter
  by_cases hq : normalizeStr inputValue = []
  · simp [hq]
  · simp only [if_neg hq]
    rw [mapScore_strs]
    rfl

/-! ## The claims -/

/-- C1: the claim (and the function's own JSDoc) says `normalize` never
errors and treats both `undefined` and `null` as `""`.  The code diverges
on `null`: the default parameter `s = ""` fires only for `undefined`, so
`normalize(null)` evaluates `null.toLowerCase()` and raises `TypeError`.
`undefined` and strings behave as claimed. -/
theorem normalize_null_type_error :
    jsNormalize JSStrArg.null = .error JSError.typeError ∧
    jsNormalize JSStrArg.undef = .ok [] ∧
    ∀ s : JStr, jsNormalize (JSStrArg.str s) = .ok (normalizeStr s) :=
  ⟨rfl, rfl, fun _ => rfl⟩

/-- C2: the claim (and the JSDoc of `cityFilter`) says every call succeeds,
including object candidates carrying `label`/`nome` and `null` candidate
lists.  The code diverges: with a non-empty normalized query it calls
`normalize` on the raw option, so an object candidate raises `TypeError`
(`toLowerCase` is not a function on it), and a `null` list raises
`TypeError` from `null.map`.  Calls whose candidates are all strings do
succeed for every query. -/
theorem cityFilter_object_null_type_error :
    jsCityFilter (some [JSOpt.obj (some ['R', 'o', 'm', 'a']) none]) ['r', 'o'] =
      .error JSError.typeError ∧
    jsCityFilter none ['r', 'o'] = .error JSError.typeError ∧
    ∀ (opts : List JStr) (inputValue : JStr),
      ∃ r, jsCityFilter (some (opts.map JSOpt.str)) inputValue = .ok r :=
  ⟨by decide, by decide, fun opts inputValue =>
    ⟨some ((cityFilter opts inputValue).map JSOpt.str),
      jsCityFilter_strs opts inputValue⟩⟩

/-- C5: whenever the query normalizes to the empty string (empty or
whitespace-only input), `cityFilter` returns the candidate list unchanged —
at the JavaScript level whatever `options` value was passed, and on string
candidate lists the very same list. -/
theorem cityFilter_empty_query_identity (options : Option (List JSOpt))
    (opts : List JStr) (inputValue : JStr)
    (h : normalizeStr inputValue = []) :
    jsCityFilter options inputValue = .ok options ∧
    cityFilter opts inputValue = opts := by
  constructor
  · unfold jsCityFilter
    simp [h]
  · unfold cityFilter
    simp [h]

/-- C5 witness: a whitespace-only query returns the lists unchanged. -/
theorem cityFilter_empty_query_identity_wit :
    jsCityFilter (some [JSOpt.str ['R', 'o', 'm', 'a']]) [' ', '\t'] =
      .ok (some [JSOpt.str ['R', 'o', 'm', 'a']]) ∧
    cityFilter [['R', 'o', 'm', 'a']] [' ', '\t'] = [['R', 'o', 'm', 'a']] :=
  cityFilter_empty_query_identity _ _ _ (by decide)

/-- C7: `normalize` is idempotent — every character surviving one pass is
fixed by lowercasing and decomposition and is not a diacritic, and
trimming is idempotent. -/
theorem normalize_idempotent (s : JStr) :
    normalizeStr (normalizeStr s) = normalizeStr s := by
  have hlow : jsLowerStr (normalizeStr s) = normalizeStr s :=
    jsLowerStr_fixed fun c hc => (normalizeStr_char hc).1
  have hnfd : jsNFD (normalizeStr s) = normalizeStr s :=
    jsNFD_fixed fun c hc => (normalizeStr_char hc).2.1
  have hstrip : stripDiacritics (normalizeStr s) = normalizeStr s :=
    stripDiacritics_fixed fun c hc => (normalizeStr_char hc).2.2
  show trimStr (stripDiacritics (jsNFD (jsLowerStr (normalizeStr s)))) =
    normalizeStr s
  rw [hlow, hnfd, hstrip]
  show trimStr (trimStr (stripDiacritics (jsNFD (jsLowerStr s)))) =
    normalizeStr s
  rw [trimStr_idem]
  rfl

/-- C8 counterexample: the output of `normalize` can contain a character of
general category Mn, and also an uppercase letter.  U+FE00 VARIATION
SELECTOR-1 is Mn but not `Diacritic`, so the code keeps it; U+1D400
MATHEMATICAL BOLD CAPITAL A is Lu with no lowercase mapping, so
`toLowerCase` keeps it. -/
theorem normalize_mn_upper_cex :
    ('︀' ∈ normalizeStr ['a', '︀'] ∧ isMn '︀' = true) ∧
    (Char.ofNat 0x1D400 ∈ normalizeStr [Char.ofNat 0x1D400] ∧
      isUpper (Char.ofNat 0x1D400) = true) := by decide

/-- C8 amended: every character of `normalize(s)` lacks the `Diacritic`
property and is fixed by `toLowerCase`, and the result carries no leading
or trailing whitespace (trimming it again changes nothing). -/
theorem normalize_output_chars (s : JStr) :
    (normalizeStr s).all (fun c => !isDiacritic c && (jsToLower c == c)) = true ∧
    trimStr (normalizeStr s) = normalizeStr s := by
  constructor
  · rw [List.all_eq_true]
    intro c hc
    obtain ⟨hl, _, hd⟩ := normalizeStr_char hc
    simp [hd, hl]
  · show trimStr (trimStr (stripDiacritics (jsNFD (jsLowerStr s)))) =
      normalizeStr s
    rw [trimStr_idem]
    rfl

/-- C3: against a non-empty, already-normalized query, the computed score
is exactly 1000 on an exact normalized match; else 800 minus the
un-normalized label length on a normalized-prefix match; else, when the
query first occurs in the normalized candidate at index `idx`,
600 minus `idx` minus 0.01 times the un-normalized label length; else 0. -/
theorem score_matches_spec_formula (label q : JStr) (hq : q ≠ [])
    (hnorm : normalizeStr q = q) :
    (normalizeStr label = q → score label q = 1000) ∧
    (normalizeStr label ≠ q → q <+: normalizeStr label →
      score label q = 800 - (label.length : ℚ)) ∧
    (∀ idx : Nat, normalizeStr label ≠ q → ¬ q <+: normalizeStr label →
      occursAt (normalizeStr label) q idx →
      (∀ j, j < idx → ¬ occursAt (normalizeStr label) q j) →
      score label q = 600 - (idx : ℚ) - 0.01 * (label.length : ℚ)) ∧
    ((∀ i, ¬ occursAt (normalizeStr label) q i) → score label q = 0) := by
  refine ⟨fun h => by simp [score, h], fun hne hp => ?_, fun idx hne hnp hocc hleast => ?_,
    fun hno => ?_⟩
  · have hb : q.isPrefixOf (normalizeStr label) = true := (isPrefixOf_eq _ _).mpr hp
    simp [score, hne, hb]
  · have hb : q.isPrefixOf (normalizeStr label) = false :=
      eq_false_of_ne_true fun h => hnp ((isPrefixOf_eq _ _).mp h)
    cases hf : firstIdx (normalizeStr label) q with
    | none => exact absurd hocc ((firstIdx_spec hq (normalizeStr label)).1 hf idx)
    | some k =>
      obtain ⟨hocck, hleastk⟩ := (firstIdx_spec hq (normalizeStr label)).2 k hf
      have hk : k = idx :=
        Nat.le_antisymm
          (Nat.not_lt.mp fun hlt => hleastk idx hlt hocc)
          (Nat.not_lt.mp fun hlt => hleast k hlt hocck)
      rw [← hk]
      have hs : score label q =
          600 - (k : ℚ) - (label.length : ℚ) * 0.01 := by
        simp [score, hne, hb, hf]
      rw [hs]
      ring
  · have hnp : ¬ q <+: normalizeStr label := fun h => hno 0 (occursAt_zero.mpr h)
    have hne : normalizeStr label ≠ q := fun h => hnp (h ▸ List.prefix_refl q)
    have hb : q.isPrefixOf (normalizeStr label) = false :=
      eq_false_of_ne_true fun h => hnp ((isPrefixOf_eq _ _).mp h)
    cases hf : firstIdx (normalizeStr label) q with
    | none => simp [score, hne, hb, hf]
    | some k =>
      exact absurd ((firstIdx_spec hq (normalizeStr label)).2 k hf).1 fun h =>
        hno k h

/-- C3 witness: `score("Rimini", "ri")` lands in the prefix tier and equals
800 minus the label length. -/
theorem score_matches_spec_formula_wit :
    score ['R', 'i', 'm', 'i', 'n', 'i'] ['r', 'i'] =
      800 - (([ 'R', 'i', 'm', 'i', 'n', 'i'] : JStr).length : ℚ) :=
  (score_matches_spec_formula ['R', 'i', 'm', 'i', 'n', 'i'] ['r', 'i']
    (by decide) (by decide)).2.1 (by decide) (by decide)

/-- C4: with a non-empty normalized query the output of `cityFilter` is a
sub-permutation of the input (a subset: no duplicates introduced, no
renaming), contains no candidate of score ≤ 0, and its scores are in
non-increasing order. -/
theorem cityFilter_pipeline_invariant (options : List JStr) (inputValue : JStr)
    (h : normalizeStr inputValue ≠ []) :
    (cityFilter options inputValue).Subperm options ∧
    (∀ l ∈ options, score l (normalizeStr inputValue) ≤ 0 →
      l ∉ cityFilter options inputValue) ∧
    List.Sorted (fun a b : ℚ => b ≤ a)
      ((cityFilter options inputValue).map
        (fun l => score l (normalizeStr inputValue))) := by
  have hout := cityFilter_of_ne options inputValue h
  refine ⟨?_, ?_, ?_⟩
  · rw [hout]
    refine ⟨(keptOf options (normalizeStr inputValue)).map Prod.fst,
      ((rankedOf_perm options (normalizeStr inputValue)).map Prod.fst).symm, ?_⟩
    have h1 : (keptOf options (normalizeStr inputValue)).Sublist
        (scoredOf options (normalizeStr inputValue)) := List.filter_sublist _
    have h2 := h1.map Prod.fst
    rw [scoredOf_map_fst] at h2
    exact h2
  · intro l _ hscore hmem
    obtain ⟨hpos, _⟩ := cityFilter_mem_pos h hmem
    exact absurd hpos (not_lt.mpr hscore)
  · rw [hout]
    have hsorted := List.sorted_insertionSort scoreGE
      (keptOf options (normalizeStr inputValue))
    have hmap : ((rankedOf options (normalizeStr inputValue)).map Prod.fst).map
        (fun l => score l (normalizeStr inputValue)) =
        (rankedOf options (normalizeStr inputValue)).map Prod.snd := by
      rw [List.map_map]
      exact List.map_congr_left fun p hp => ((mem_rankedOf hp).1).symm
    rw [hmap]
    have : List.Pairwise (fun a b : JStr × ℚ => b.2 ≤ a.2)
        (rankedOf options (normalizeStr inputValue)) := hsorted
    exact List.pairwise_map.mpr this

/-- C4 witness at the JSDoc example list and query `"ri"`. -/
theorem cityFilter_pipeline_invariant_wit :
    (cityFilter [['R', 'o', 'm', 'a'], ['R', 'i', 'm', 'i', 'n', 'i']]
        ['r', 'i']).Subperm [['R', 'o', 'm', 'a'], ['R', 'i', 'm', 'i', 'n', 'i']] ∧
    (∀ l ∈ [['R', 'o', 'm', 'a'], ['R', 'i', 'm', 'i', 'n', 'i']],
      score l (normalizeStr ['r', 'i']) ≤ 0 →
      l ∉ cityFilter [['R', 'o', 'm', 'a'], ['R', 'i', 'm', 'i', 'n', 'i']]
        ['r', 'i']) ∧
    List.Sorted (fun a b : ℚ => b ≤ a)
      ((cityFilter [['R', 'o', 'm', 'a'], ['R', 'i', 'm', 'i', 'n', 'i']]
        ['r', 'i']).map (fun l => score l (normalizeStr ['r', 'i']))) :=
  cityFilter_pipeline_invariant _ _ (by decide)

/-- C6: the sort is stable — for every score value `c`, the pairs scoring
`c` appear in the sorted output in exactly the order the filter stage
produced them (hence in input order); and with a non-empty normalized
query the output of `cityFilter` is precisely the labels of that sorted
pair list. -/
theorem cityFilter_stable_ties (options : List JStr) (inputValue : JStr) (c : ℚ) :
    (rankedOf options (normalizeStr inputValue)).filter
        (fun x => decide (x.2 = c)) =
      (keptOf options (normalizeStr inputValue)).filter
        (fun x => decide (x.2 = c)) ∧
    (normalizeStr inputValue ≠ [] →
      cityFilter options inputValue =
        (rankedOf options (normalizeStr inputValue)).map Prod.fst) :=
  ⟨filter_score_insertionSort c (keptOf options (normalizeStr inputValue)),
    cityFilter_of_ne options inputValue⟩

/-- C6 witness at the diacritic-insensitive pair of the spec
(`["Pesaro", "Pésàro"]`, both exact matches for `"pesaro"`). -/
theorem cityFilter_stable_ties_wit :
    (rankedOf [['P', 'e', 's', 'a', 'r', 'o'],
        ['P', 'é', 's', 'à', 'r', 'o']]
        (normalizeStr ['p', 'e', 's', 'a', 'r', 'o'])).filter
        (fun x => decide (x.2 = 1000)) =
      (keptOf [['P', 'e', 's', 'a', 'r', 'o'],
        ['P', 'é', 's', 'à', 'r', 'o']]
        (normalizeStr ['p', 'e', 's', 'a', 'r', 'o'])).filter
        (fun x => decide (x.2 = 1000)) ∧
    cityFilter [['P', 'e', 's', 'a', 'r', 'o'],
        ['P', 'é', 's', 'à', 'r', 'o']] ['p', 'e', 's', 'a', 'r', 'o'] =
      (rankedOf [['P', 'e', 's', 'a', 'r', 'o'],
        ['P', 'é', 's', 'à', 'r', 'o']]
        (normalizeStr ['p', 'e', 's', 'a', 'r', 'o'])).map Prod.fst :=
  ⟨(cityFilter_stable_ties _ _ 1000).1,
    (cityFilter_stable_ties _ _ 1000).2 (by decide)⟩

/-- C9: for labels shorter than 200 characters the three tiers are strictly
separated — an exact-tier candidate outscores every prefix-tier candidate,
and a prefix-tier candidate outscores every substring-tier candidate. -/
theorem tier_separation (q l₁ l₂ : JStr) (hq : q ≠ [])
    (h₁ : l₁.length < 200) (h₂ : l₂.length < 200) :
    (normalizeStr l₁ = q → normalizeStr l₂ ≠ q →
      q <+: normalizeStr l₂ → score l₂ q < score l₁ q) ∧
    (normalizeStr l₁ ≠ q → q <+: normalizeStr l₁ →
      normalizeStr l₂ ≠ q → ¬ q <+: normalizeStr l₂ →
      (∃ i, occursAt (normalizeStr l₂) q i) → score l₂ q < score l₁ q) := by
  constructor
  · intro hx hne hp
    have hb : q.isPrefixOf (normalizeStr l₂) = true := (isPrefixOf_eq _ _).mpr hp
    have hs1 : score l₁ q = 1000 := by simp [score, hx]
    have hs2 : score l₂ q = 800 - (l₂.length : ℚ) := by simp [score, hne, hb]
    have hc : (0 : ℚ) ≤ (l₂.length : ℚ) := Nat.cast_nonneg _
    rw [hs1, hs2]
    linarith
  · intro hne₁ hp₁ hne₂ hnp₂ hocc
    have hb₁ : q.isPrefixOf (normalizeStr l₁) = true := (isPrefixOf_eq _ _).mpr hp₁
    have hb₂ : q.isPrefixOf (normalizeStr l₂) = false :=
      eq_false_of_ne_true fun h => hnp₂ ((isPrefixOf_eq _ _).mp h)
    have hs1 : score l₁ q = 800 - (l₁.length : ℚ) := by simp [score, hne₁, hb₁]
    cases hf : firstIdx (normalizeStr l₂) q with
    | none =>
      obtain ⟨i, hi⟩ := hocc
      exact absurd hi ((firstIdx_spec hq (normalizeStr l₂)).1 hf i)
    | some k =>
      have hs2 : score l₂ q = 600 - (k : ℚ) - (l₂.length : ℚ) * 0.01 := by
        simp [score, hne₂, hb₂, hf]
      have hk1 : 1 ≤ k := firstIdx_pos (by simp [hb₂]) hf
      have hkc : (1 : ℚ) ≤ (k : ℚ) := by exact_mod_cast hk1
      have hc1 : (l₁.length : ℚ) < 200 := by exact_mod_cast h₁
      have hc2 : (0 : ℚ) ≤ (l₂.length : ℚ) := Nat.cast_nonneg _
      rw [hs1, hs2]
      nlinarith
  
/-- C9 witness: the exact match `"Ri"` outranks the prefix match
`"Rimini"` for the query `"ri"`. -/
theorem tier_separation_wit :
    score ['R', 'i', 'm', 'i', 'n', 'i'] ['r', 'i'] <
      score ['R', 'i'] ['r', 'i'] :=
  (tier_separation ['r', 'i'] ['R', 'i'] ['R', 'i', 'm', 'i', 'n', 'i']
    (by decide) (by decide) (by decide)).1 (by decide) (by decide) (by decide)

/-- C10: a candidate whose normalized label strictly extends the normalized
query as a prefix match but whose un-normalized length is at least 800
receives score `800 − length ≤ 0` and is dropped from the output despite
matching. -/
theorem long_label_dropped (options : List JStr) (inputValue label : JStr)
    (hq : normalizeStr inputValue ≠ [])
    (hne : normalizeStr label ≠ normalizeStr inputValue)
    (hpre : normalizeStr inputValue <+: normalizeStr label)
    (hlen : 800 ≤ label.length) :
    score label (normalizeStr inputValue) ≤ 0 ∧
    label ∉ cityFilter options inputValue := by
  have hb : (normalizeStr inputValue).isPrefixOf (normalizeStr label) = true :=
    (isPrefixOf_eq _ _).mpr hpre
  have hscore : score label (normalizeStr inputValue) =
      800 - (label.length : ℚ) := by
    simp [score, hne, hb]
  have hcast : (800 : ℚ) ≤ (label.length : ℚ) := by exact_mod_cast hlen
  constructor
  · rw [hscore]
    linarith
  · intro hmem
    obtain ⟨hpos, _⟩ := cityFilter_mem_pos hq hmem
    rw [hscore] at hpos
    linarith

set_option maxRecDepth 40000 in
/-- C10 witness: an 800-character label `"aa…a"` is a proper prefix match
for the query `"a"` yet is absent from the output. -/
theorem long_label_dropped_wit :
    score (List.replicate 800 'a') (normalizeStr ['a']) ≤ 0 ∧
    (List.replicate 800 'a') ∉
      cityFilter [List.replicate 800 'a'] ['a'] :=
  long_label_dropped [List.replicate 800 'a'] ['a'] (List.replicate 800 'a')
    (by decide) (by decide) (by decide) (by decide)
